import Mathlib

/-!
Shallow embedding of `anitareader`'s `WaveformReader` (src/WaveformReader.cpp,
src/WaveformReader.hpp).  The external collaborators (`AnitaDataset`,
`UsefulAnitaEvent`/`getGraph`, `AnalysisWaveform::makeWf`) are modelled at their
interface: an event source is a list of events with a cursor, and each event
carries, per channel (phi-sector, ring, polarization), its resampled evenly
sampled waveform as a list of integer amplitudes (numeric representation is
abstracted to `Int`).  The caller's 5-axis numpy buffer is modelled as a total
function from the five indices to an amplitude, written pointwise exactly where
the C++ loop writes.
-/

namespace Anitareader

/-- The detector rings, in the order the reader iterates them
(`{AnitaRing::kTopRing, AnitaRing::kMiddleRing, AnitaRing::kBottomRing}`,
WaveformReader.cpp lines 48-49). -/
inductive AnitaRing where
  | kTopRing
  | kMiddleRing
  | kBottomRing
deriving DecidableEq

/-- The polarizations, in the order the reader iterates them
(`{AnitaPol::kHorizontal, AnitaPol::kVertical}`, WaveformReader.cpp line 52). -/
inductive AnitaPol where
  | kHorizontal
  | kVertical
deriving DecidableEq

/-- Modelled from the spec: the numeric value of the external `AnitaRing`
enumerator used as the buffer's ring-axis index (the enum itself lives in the
external ANITA libraries, not in this repository); the spec fixes the ring-axis
order as top, middle, bottom. -/
def ringIdx : AnitaRing → Nat
  | .kTopRing => 0
  | .kMiddleRing => 1
  | .kBottomRing => 2

/-- Modelled from the spec: the numeric value of the external `AnitaPol`
enumerator used as the buffer's polarization-axis index; the spec fixes the
order as horizontal, vertical. -/
def polIdx : AnitaPol → Nat
  | .kHorizontal => 0
  | .kVertical => 1

/-- One event of the source: its header's event number, the run it belongs to,
and, for each channel (phi-sector, ring, polarization), the resampled evenly
sampled waveform that the external
`AnalysisWaveform::makeWf(useful->getGraph(ring, phi, pol), false)->even()`
chain produces for it. -/
structure Event where
  eventNumber : Int
  run : Nat
  trace : Nat → AnitaRing → AnitaPol → List Int

/-- Placeholder event used to totalize reads past the end of the source (the
C++ code may read past the end; the spec declares that undefined). -/
def defaultEvent : Event :=
  { eventNumber := 0, run := 0, trace := fun _ _ _ => [] }

/-- The external `AnitaDataset`, modelled at its interface: a sequence of
events (possibly spanning several runs) and a cursor. -/
structure AnitaDataset where
  events : List Event
  pos : Nat

/-- `dataset_.header()`: the current event's header. -/
def AnitaDataset.header (d : AnitaDataset) : Event :=
  d.events.getD d.pos defaultEvent

/-- `dataset_.useful()`: the calibrated view of the current event, from which
channel graphs are read.  Calibration is external; the model exposes the same
current event. -/
def AnitaDataset.useful (d : AnitaDataset) : Event :=
  d.events.getD d.pos defaultEvent

/-- `dataset_.next()`: advance the cursor by one event. -/
def AnitaDataset.next (d : AnitaDataset) : AnitaDataset :=
  { events := d.events, pos := d.pos + 1 }

/-- `dataset_.getCurrRun()`: the run of the event the cursor is on. -/
def AnitaDataset.getCurrRun (d : AnitaDataset) : Nat :=
  (d.events.getD d.pos defaultEvent).run

/-- The shape of the caller's 5-axis buffer: `r.shape(0)` event slots,
`r.shape(1)` phi-sectors, `r.shape(2)` rings, `r.shape(3)` polarizations,
`r.shape(4)` samples.  The reader only ever reads fields `events`, `phis` and
`samples`; the ring and polarization axis sizes are never consulted. -/
structure Shape where
  events : Nat
  phis : Nat
  rings : Nat
  pols : Nat
  samples : Nat

/-- The caller's buffer, as the total function sending the five indices
(event slot, phi, ring index, polarization index, sample) to the stored
amplitude.  The C++ accessor is unchecked, so no bounds live in the model. -/
def Buffer : Type :=
  Nat → Nat → Nat → Nat → Nat → Int

/-- One unchecked write `r(event, phi, ring, pol, sample) = v`. -/
def Buffer.set (b : Buffer) (e p r q s : Nat) (v : Int) : Buffer :=
  fun e' p' r' q' s' =>
    if e' = e ∧ p' = p ∧ r' = r ∧ q' = q ∧ s' = s then v else b e' p' r' q' s'

/-- The reader: the currently loaded run (`run_`) and the dataset cursor
(`dataset_`), exactly the two fields of `WaveformReader`
(WaveformReader.hpp lines 22, 27). -/
structure WaveformReader where
  run_ : Nat
  dataset_ : AnitaDataset

/-- The constructor `WaveformReader(const int run)`: stores the run argument in
`run_` and opens an `AnitaDataset` for it; the dataset the external constructor
produces is a parameter of the model. -/
def WaveformReader.create (run : Nat) (d : AnitaDataset) : WaveformReader :=
  { run_ := run, dataset_ := d }

/-- The innermost sample loop (lines 68-70):
`for (sample = 0; sample < N; sample++) r(event,phi,ring,pol,sample) = signal[sample]`. -/
def writeSamples (b : Buffer) (e p r q : Nat) (signal : List Int) : Nat → Buffer
  | 0 => b
  | n + 1 => (writeSamples b e p r q signal n).set e p r q n (signal.getD n 0)

/-- One channel of one event slot (lines 55-74): fetch the graph, resample it,
take `N = min(waveform->even()->GetN(), r.shape(4))` and copy the first `N`
samples. -/
def fillChannel (b : Buffer) (sh : Shape) (ev : Event) (e p : Nat)
    (ring : AnitaRing) (pol : AnitaPol) : Buffer :=
  let signal := ev.trace p ring pol
  let N := min signal.length sh.samples
  writeSamples b e p (ringIdx ring) (polIdx pol) signal N

/-- The ring and polarization loops for one phi-sector (lines 48-77), iterating
the two literal enumerations in their fixed order. -/
def fillRingsPols (b : Buffer) (sh : Shape) (ev : Event) (e p : Nat) : Buffer :=
  [AnitaRing.kTopRing, AnitaRing.kMiddleRing, AnitaRing.kBottomRing].foldl
    (fun b1 ring =>
      [AnitaPol.kHorizontal, AnitaPol.kVertical].foldl
        (fun b2 pol => fillChannel b2 sh ev e p ring pol) b1)
    b

/-- The phi loop (line 45): `for (phi = 0; phi < r.shape(1); phi++)`, unrolled
as ascending recursion on the number of phi-sectors processed so far. -/
def fillPhis (b : Buffer) (sh : Shape) (ev : Event) (e : Nat) : Nat → Buffer
  | 0 => b
  | p + 1 => fillRingsPols (fillPhis b sh ev e p) sh ev e p

/-- The body of one event-slot iteration before the cursor advance: fill every
phi-sector of slot `e` from event `ev`. -/
def fillEvent (b : Buffer) (sh : Shape) (ev : Event) (e : Nat) : Buffer :=
  fillPhis b sh ev e sh.phis

/-- Everything `next` produces: its return value `evno`, the updated reader and
the mutated buffer, instrumented with the number of loop iterations executed
(`attempted`) and whether the call returned through the run-boundary branch at
line 93 (`early`). -/
structure NextResult where
  evno : Int
  attempted : Nat
  early : Bool
  reader : WaveformReader
  buf : Buffer

/-- The event loop of `WaveformReader::next` (lines 32-97): `e` is the current
slot index, `fuel` the number of slots still to fill (`r.shape(0) - e`).  Each
iteration reads the header's event number into `evno`, fills slot `e` from the
calibrated view, advances the dataset, and returns early if the dataset's
current run differs from `run_`, updating `run_` to it. -/
def nextLoop (sh : Shape) (rd : WaveformReader) (buf : Buffer) (evno : Int)
    (e : Nat) : Nat → NextResult
  | 0 => { evno := evno, attempted := 0, early := false, reader := rd, buf := buf }
  | fuel + 1 =>
    let ev := rd.dataset_.header
    let evno1 := ev.eventNumber
    let buf1 := fillEvent buf sh rd.dataset_.useful e
    let d1 := rd.dataset_.next
    if d1.getCurrRun ≠ rd.run_ then
      { evno := evno1, attempted := 1, early := true,
        reader := { run_ := d1.getCurrRun, dataset_ := d1 }, buf := buf1 }
    else
      let res := nextLoop sh { run_ := rd.run_, dataset_ := d1 } buf1 evno1 (e + 1) fuel
      { res with attempted := res.attempted + 1 }

/-- `WaveformReader::next(waveforms)`: start with `evno = 0` (line 29) and run
the event loop over the buffer's `r.shape(0)` slots. -/
def WaveformReader.next (rd : WaveformReader) (sh : Shape) (buf : Buffer) :
    NextResult :=
  nextLoop sh rd buf 0 0 sh.events

/-- The event at offset `k` from the reader's cursor. -/
def slotEvent (rd : WaveformReader) (k : Nat) : Event :=
  rd.dataset_.events.getD (rd.dataset_.pos + k) defaultEvent

/-- The reader state after `n` successive calls of `next` with the same shape
and buffer (the buffer contents play no role in the reader's evolution). -/
def iterCalls (sh : Shape) (buf : Buffer) (rd : WaveformReader) : Nat → WaveformReader
  | 0 => rd
  | n + 1 => ((iterCalls sh buf rd n).next sh buf).reader

/-- The per-channel intermediate objects of the innermost loop: the raw trace
`gr = useful->getGraph(ring, phi, pol)` (line 55) and the resampled waveform
`waveform = AnalysisWaveform::makeWf(gr, false)` (line 58), tagged with the
channel they were acquired for. -/
inductive ChObj where
  | graph (e p : Nat) (ring : AnitaRing) (pol : AnitaPol)
  | waveform (e p : Nat) (ring : AnitaRing) (pol : AnitaPol)
deriving DecidableEq

/-- The acquisition/release events of one innermost-loop iteration, in source
order: the graph is acquired (line 55), the waveform is acquired (line 58), the
waveform is freed (`delete waveform`, line 73), the graph is freed
(`delete gr`, line 74).  `true` marks an acquisition, `false` a release. -/
def channelTrace (e p : Nat) (ring : AnitaRing) (pol : AnitaPol) :
    List (Bool × ChObj) :=
  [(true, ChObj.graph e p ring pol), (true, ChObj.waveform e p ring pol),
   (false, ChObj.waveform e p ring pol), (false, ChObj.graph e p ring pol)]

/-- The acquisition/release events of the ring and polarization loops of one
phi-sector, in iteration order. -/
def ringsPolsTrace (e p : Nat) : List (Bool × ChObj) :=
  [AnitaRing.kTopRing, AnitaRing.kMiddleRing, AnitaRing.kBottomRing].foldl
    (fun t1 ring =>
      [AnitaPol.kHorizontal, AnitaPol.kVertical].foldl
        (fun t2 pol => t2 ++ channelTrace e p ring pol) t1)
    []

/-- The acquisition/release events of the phi loop of one event slot. -/
def phisTrace (e : Nat) : Nat → List (Bool × ChObj)
  | 0 => []
  | p + 1 => phisTrace e p ++ ringsPolsTrace e p

/-- The acquisition/release events of the whole event loop of `next`,
mirroring `nextLoop`: each iteration emits its channels' events, then the run
check either stops (the early return happens after the channel loops have
finished, so no release is skipped) or continues. -/
def nextTraceLoop (sh : Shape) (rd : WaveformReader) (e : Nat) :
    Nat → List (Bool × ChObj)
  | 0 => []
  | fuel + 1 =>
    let t := phisTrace e sh.phis
    let d1 := rd.dataset_.next
    if d1.getCurrRun ≠ rd.run_ then t
    else t ++ nextTraceLoop sh { run_ := rd.run_, dataset_ := d1 } (e + 1) fuel

/-- The acquisition/release events of one full call of `next`. -/
def nextTrace (rd : WaveformReader) (sh : Shape) : List (Bool × ChObj) :=
  nextTraceLoop sh rd 0 sh.events

/-- A trace is a concatenation of complete per-channel blocks: every
intermediate object is acquired and released within its own channel iteration,
before the next channel begins. -/
def scopedPerChannel (t : List (Bool × ChObj)) : Prop :=
  ∃ cs : List (Nat × Nat × AnitaRing × AnitaPol),
    t = cs.flatMap fun c => channelTrace c.1 c.2.1 c.2.2.1 c.2.2.2

/-- A concrete event source for evaluating the development: two events of run
1 followed by two events of run 2. -/
def evA : Event := ⟨10, 1, fun _ _ _ => [7, 8]⟩

def evB : Event := ⟨11, 1, fun _ _ _ => [9]⟩

def evC : Event := ⟨20, 2, fun _ _ _ => [5]⟩

def evD : Event := ⟨21, 2, fun _ _ _ => [6]⟩

/-- A reader positioned at the start of a two-event run-1 source. -/
def rdAB : WaveformReader := ⟨1, ⟨[evA, evB], 0⟩⟩

/-- A reader positioned at the start of a source holding run 1 = {evA, evB}
followed by run 2 = {evC, evD}. -/
def rdABCD : WaveformReader := ⟨1, ⟨[evA, evB, evC, evD], 0⟩⟩

def evB2 : Event := ⟨12, 1, fun _ _ _ => [4]⟩

/-- A reader positioned at the start of a three-event run-1 source. -/
def rdAB3 : WaveformReader := ⟨1, ⟨[evA, evB, evB2], 0⟩⟩

def bufZero : Buffer := fun _ _ _ _ _ => 0

def bufNine : Buffer := fun _ _ _ _ _ => 9

/-- Which ring, if any, the ring-axis index `r` addresses. -/
def decodeRing : Nat → Option AnitaRing
  | 0 => some .kTopRing
  | 1 => some .kMiddleRing
  | 2 => some .kBottomRing
  | _ => none

/-- Which polarization, if any, the polarization-axis index `q` addresses. -/
def decodePol : Nat → Option AnitaPol
  | 0 => some .kHorizontal
  | 1 => some .kVertical
  | _ => none

/-- The value a fully processed event slot holds at phi `p`, ring index `r`,
polarization index `q`, sample `s`: the event's waveform sample when the index
addresses a channel and lies below `min(sample count, buffer sample size)`, and
the previous buffer content `old` otherwise. -/
def chanVal (sh : Shape) (ev : Event) (p r q s : Nat) (old : Int) : Int :=
  match decodeRing r, decodePol q with
  | some ring, some pol =>
    if s < min (ev.trace p ring pol).length sh.samples then
      (ev.trace p ring pol).getD s 0
    else old
  | _, _ => old

theorem AnitaDataset.next_events (d : AnitaDataset) : d.next.events = d.events :=
  rfl

theorem AnitaDataset.next_pos (d : AnitaDataset) : d.next.pos = d.pos + 1 :=
  rfl

theorem writeSamples_apply (N : Nat) (b : Buffer) (e p r q : Nat)
    (signal : List Int) (e' p' r' q' s' : Nat) :
    writeSamples b e p r q signal N e' p' r' q' s' =
      if e' = e ∧ p' = p ∧ r' = r ∧ q' = q ∧ s' < N then signal.getD s' 0
      else b e' p' r' q' s' := by
  induction N with
  | zero => simp [writeSamples]
  | succ n ih =>
    simp only [writeSamples, Buffer.set]
    by_cases he : e' = e
    · by_cases hp : p' = p
      · by_cases hr : r' = r
        · by_cases hq : q' = q
          · by_cases hs : s' = n
            · subst hs
              simp [he, hp, hr, hq]
            · rw [if_neg (by simp [hs]), ih]
              by_cases hlt : s' < n
              · rw [if_pos ⟨he, hp, hr, hq, hlt⟩,
                  if_pos ⟨he, hp, hr, hq, by omega⟩]
              · rw [if_neg (by simp [he, hp, hr, hq]; omega),
                  if_neg (by simp [he, hp, hr, hq]; omega)]
          · rw [if_neg (by simp [hq]), ih,
              if_neg (by simp [hq]), if_neg (by simp [hq])]
        · rw [if_neg (by simp [hr]), ih,
            if_neg (by simp [hr]), if_neg (by simp [hr])]
      · rw [if_neg (by simp [hp]), ih,
          if_neg (by simp [hp]), if_neg (by simp [hp])]
    · rw [if_neg (by simp [he]), ih,
        if_neg (by simp [he]), if_neg (by simp [he])]

theorem fillChannel_apply (b : Buffer) (sh : Shape) (ev : Event) (e p : Nat)
    (ring : AnitaRing) (pol : AnitaPol) (e' p' r' q' s' : Nat) :
    fillChannel b sh ev e p ring pol e' p' r' q' s' =
      if e' = e ∧ p' = p ∧ r' = ringIdx ring ∧ q' = polIdx pol ∧
          s' < min (ev.trace p ring pol).length sh.samples then
        (ev.trace p ring pol).getD s' 0
      else b e' p' r' q' s' := by
  simp only [fillChannel]
  exact writeSamples_apply _ b e p (ringIdx ring) (polIdx pol) _ e' p' r' q' s'

theorem fillRingsPols_apply (b : Buffer) (sh : Shape) (ev : Event) (e p : Nat)
    (e' p' r' q' s' : Nat) :
    fillRingsPols b sh ev e p e' p' r' q' s' =
      if e' = e ∧ p' = p then chanVal sh ev p r' q' s' (b e' p' r' q' s')
      else b e' p' r' q' s' := by
  simp only [fillRingsPols, List.foldl_cons, List.foldl_nil]
  by_cases he : e' = e
  · by_cases hp : p' = p
    · subst he; subst hp
      rw [if_pos ⟨rfl, rfl⟩]
      match r', q' with
      | 0, 0 =>
        simp [fillChannel_apply, ringIdx, polIdx, chanVal, decodeRing, decodePol]
      | 0, 1 =>
        simp [fillChannel_apply, ringIdx, polIdx, chanVal, decodeRing, decodePol]
      | 0, q' + 2 =>
        simp [fillChannel_apply, ringIdx, polIdx, chanVal, decodeRing, decodePol]
      | 1, 0 =>
        simp [fillChannel_apply, ringIdx, polIdx, chanVal, decodeRing, decodePol]
      | 1, 1 =>
        simp [fillChannel_apply, ringIdx, polIdx, chanVal, decodeRing, decodePol]
      | 1, q' + 2 =>
        simp [fillChannel_apply, ringIdx, polIdx, chanVal, decodeRing, decodePol]
      | 2, 0 =>
        simp [fillChannel_apply, ringIdx, polIdx, chanVal, decodeRing, decodePol]
      | 2, 1 =>
        simp [fillChannel_apply, ringIdx, polIdx, chanVal, decodeRing, decodePol]
      | 2, q' + 2 =>
        simp [fillChannel_apply, ringIdx, polIdx, chanVal, decodeRing, decodePol]
      | r' + 3, q' =>
        simp [fillChannel_apply, ringIdx, polIdx, chanVal, decodeRing, decodePol]
    · simp [fillChannel_apply, hp]
  · simp [fillChannel_apply, he]

theorem fillPhis_apply (n : Nat) (b : Buffer) (sh : Shape) (ev : Event)
    (e : Nat) (e' p' r' q' s' : Nat) :
    fillPhis b sh ev e n e' p' r' q' s' =
      if e' = e ∧ p' < n then chanVal sh ev p' r' q' s' (b e' p' r' q' s')
      else b e' p' r' q' s' := by
  induction n with
  | zero => simp [fillPhis]
  | succ m ih =>
    simp only [fillPhis]
    rw [fillRingsPols_apply]
    by_cases he : e' = e
    · by_cases hp : p' = m
      · subst hp
        rw [if_pos ⟨he, rfl⟩, ih, if_neg (by omega),
          if_pos ⟨he, by omega⟩]
      · rw [if_neg (by simp [hp]), ih]
        by_cases hlt : p' < m
        · rw [if_pos ⟨he, hlt⟩, if_pos ⟨he, by omega⟩]
        · rw [if_neg (by simp [he]; omega), if_neg (by simp [he]; omega)]
    · rw [if_neg (by simp [he]), ih,
        if_neg (by simp [he]), if_neg (by simp [he])]

theorem fillEvent_apply (b : Buffer) (sh : Shape) (ev : Event) (e : Nat)
    (e' p' r' q' s' : Nat) :
    fillEvent b sh ev e e' p' r' q' s' =
      if e' = e ∧ p' < sh.phis then chanVal sh ev p' r' q' s' (b e' p' r' q' s')
      else b e' p' r' q' s' :=
  fillPhis_apply sh.phis b sh ev e e' p' r' q' s'

theorem nextLoop_attempted_le (fuel : Nat) (sh : Shape) (rd : WaveformReader)
    (buf : Buffer) (evno : Int) (e : Nat) :
    (nextLoop sh rd buf evno e fuel).attempted ≤ fuel := by
  induction fuel generalizing rd buf evno e with
  | zero => simp [nextLoop]
  | succ n ih =>
    simp only [nextLoop]
    by_cases hrun : (rd.dataset_.next).getCurrRun ≠ rd.run_
    · simp [hrun]
    · simpa [hrun] using ih _ _ _ _

theorem nextLoop_attempted_pos (fuel : Nat) (sh : Shape) (rd : WaveformReader)
    (buf : Buffer) (evno : Int) (e : Nat) (h : 1 ≤ fuel) :
    1 ≤ (nextLoop sh rd buf evno e fuel).attempted := by
  match fuel, h with
  | n + 1, _ =>
    simp only [nextLoop]
    by_cases hrun : (rd.dataset_.next).getCurrRun ≠ rd.run_
    · simp [hrun]
    · simp [hrun]

theorem nextLoop_events (fuel : Nat) (sh : Shape) (rd : WaveformReader)
    (buf : Buffer) (evno : Int) (e : Nat) :
    (nextLoop sh rd buf evno e fuel).reader.dataset_.events =
      rd.dataset_.events := by
  induction fuel generalizing rd buf evno e with
  | zero => simp [nextLoop]
  | succ n ih =>
    simp only [nextLoop]
    by_cases hrun : (rd.dataset_.next).getCurrRun ≠ rd.run_
    · rw [if_pos hrun]
      simp [AnitaDataset.next]
    · rw [if_neg hrun]
      exact ih { run_ := rd.run_, dataset_ := rd.dataset_.next }
        (fillEvent buf sh rd.dataset_.useful e) (rd.dataset_.header).eventNumber (e + 1)

theorem nextLoop_pos (fuel : Nat) (sh : Shape) (rd : WaveformReader)
    (buf : Buffer) (evno : Int) (e : Nat) :
    (nextLoop sh rd buf evno e fuel).reader.dataset_.pos =
      rd.dataset_.pos + (nextLoop sh rd buf evno e fuel).attempted := by
  induction fuel generalizing rd buf evno e with
  | zero => simp [nextLoop]
  | succ n ih =>
    simp only [nextLoop]
    by_cases hrun : (rd.dataset_.next).getCurrRun ≠ rd.run_
    · rw [if_pos hrun]
      simp [AnitaDataset.next]
    · rw [if_neg hrun]
      have h1 := ih { run_ := rd.run_, dataset_ := rd.dataset_.next }
        (fillEvent buf sh rd.dataset_.useful e) (rd.dataset_.header).eventNumber (e + 1)
      simp only [AnitaDataset.next] at h1 ⊢
      omega

theorem nextLoop_evno (fuel : Nat) (sh : Shape) (rd : WaveformReader)
    (buf : Buffer) (evno : Int) (e : Nat) (h : 1 ≤ fuel) :
    (nextLoop sh rd buf evno e fuel).evno =
      (rd.dataset_.events.getD
        (rd.dataset_.pos + ((nextLoop sh rd buf evno e fuel).attempted - 1))
        defaultEvent).eventNumber := by
  induction fuel generalizing rd buf evno e with
  | zero => omega
  | succ n ih =>
    simp only [nextLoop]
    by_cases hrun : (rd.dataset_.next).getCurrRun ≠ rd.run_
    · rw [if_pos hrun]
      simp [AnitaDataset.header]
    · rw [if_neg hrun]
      by_cases hn : 1 ≤ n
      · have h1 := ih { run_ := rd.run_, dataset_ := rd.dataset_.next }
          (fillEvent buf sh rd.dataset_.useful e) (rd.dataset_.header).eventNumber
          (e + 1) hn
        have hpos := nextLoop_attempted_pos n sh
          { run_ := rd.run_, dataset_ := rd.dataset_.next }
          (fillEvent buf sh rd.dataset_.useful e) (rd.dataset_.header).eventNumber
          (e + 1) hn
        simp only [AnitaDataset.next] at h1 hpos ⊢
        rw [h1]
        congr 2
        omega
      · have hn0 : n = 0 := by omega
        subst hn0
        simp [nextLoop, AnitaDataset.header]

theorem nextLoop_buf (fuel : Nat) (sh : Shape) (rd : WaveformReader)
    (buf : Buffer) (evno : Int) (e : Nat) (i p r q s : Nat) :
    (nextLoop sh rd buf evno e fuel).buf i p r q s =
      if e ≤ i ∧ i < e + (nextLoop sh rd buf evno e fuel).attempted ∧ p < sh.phis
      then
        chanVal sh
          (rd.dataset_.events.getD (rd.dataset_.pos + (i - e)) defaultEvent)
          p r q s (buf i p r q s)
      else buf i p r q s := by
  induction fuel generalizing rd buf evno e with
  | zero =>
    simp only [nextLoop]
    rw [if_neg (by omega)]
  | succ n ih =>
    simp only [nextLoop]
    by_cases hrun : (rd.dataset_.next).getCurrRun ≠ rd.run_
    · rw [if_pos hrun]
      dsimp only
      rw [fillEvent_apply]
      by_cases hie : i = e
      · subst hie
        by_cases hp : p < sh.phis
        · rw [if_pos ⟨rfl, hp⟩, if_pos ⟨le_refl _, by omega, hp⟩]
          simp [AnitaDataset.useful]
        · rw [if_neg (by simp [hp]), if_neg (by simp [hp])]
      · rw [if_neg (by simp [hie]), if_neg (by omega)]
    · rw [if_neg hrun]
      dsimp only
      rw [ih]
      simp only [AnitaDataset.next_events, AnitaDataset.next_pos]
      rw [fillEvent_apply]
      set A := (nextLoop sh { run_ := rd.run_, dataset_ := rd.dataset_.next }
        (fillEvent buf sh rd.dataset_.useful e)
        (rd.dataset_.header).eventNumber (e + 1) n).attempted with hA
      by_cases hp : p < sh.phis
      · by_cases hie : i = e
        · subst hie
          rw [if_neg (by omega), if_pos ⟨rfl, hp⟩, if_pos ⟨le_refl _, by omega, hp⟩]
          simp [AnitaDataset.useful]
        · by_cases hlo : e + 1 ≤ i
          · by_cases hhi : i < e + 1 + A
            · rw [if_pos ⟨hlo, hhi, hp⟩, if_neg (by simp [hie]),
                if_pos (show e ≤ i ∧ i < e + (A + 1) ∧ p < sh.phis from
                  ⟨by omega, by omega, hp⟩)]
              have hidx : rd.dataset_.pos + 1 + (i - (e + 1)) =
                  rd.dataset_.pos + (i - e) := by omega
              rw [hidx]
            · rw [if_neg (by omega), if_neg (by simp [hie]), if_neg (by omega)]
          · rw [if_neg (by omega), if_neg (by simp [hie]), if_neg (by omega)]
      · rw [if_neg (by simp [hp]), if_neg (by simp [hp]), if_neg (by simp [hp])]

theorem nextLoop_early_true (fuel : Nat) (sh : Shape) (rd : WaveformReader)
    (buf : Buffer) (evno : Int) (e : Nat)
    (h : (nextLoop sh rd buf evno e fuel).early = true) :
    (nextLoop sh rd buf evno e fuel).reader.run_ =
        (rd.dataset_.events.getD
          (rd.dataset_.pos + (nextLoop sh rd buf evno e fuel).attempted)
          defaultEvent).run ∧
      (rd.dataset_.events.getD
          (rd.dataset_.pos + (nextLoop sh rd buf evno e fuel).attempted)
          defaultEvent).run ≠ rd.run_ := by
  induction fuel generalizing rd buf evno e with
  | zero => simp [nextLoop] at h
  | succ n ih =>
    simp only [nextLoop] at h ⊢
    by_cases hrun : (rd.dataset_.next).getCurrRun ≠ rd.run_
    · rw [if_pos hrun] at h ⊢
      dsimp only
      simp only [AnitaDataset.getCurrRun, AnitaDataset.next_events,
        AnitaDataset.next_pos] at hrun ⊢
      exact ⟨trivial, hrun⟩
    · rw [if_neg hrun] at h ⊢
      dsimp only at h ⊢
      have h1 := ih { run_ := rd.run_, dataset_ := rd.dataset_.next }
        (fillEvent buf sh rd.dataset_.useful e) (rd.dataset_.header).eventNumber
        (e + 1) h
      simp only [AnitaDataset.next_events, AnitaDataset.next_pos] at h1
      have hidx : rd.dataset_.pos + 1 + (nextLoop sh
          { run_ := rd.run_, dataset_ := rd.dataset_.next }
          (fillEvent buf sh rd.dataset_.useful e)
          (rd.dataset_.header).eventNumber (e + 1) n).attempted =
          rd.dataset_.pos + ((nextLoop sh
          { run_ := rd.run_, dataset_ := rd.dataset_.next }
          (fillEvent buf sh rd.dataset_.useful e)
          (rd.dataset_.header).eventNumber (e + 1) n).attempted + 1) := by
        omega
      rw [hidx] at h1
      exact h1

theorem nextLoop_early_false (fuel : Nat) (sh : Shape) (rd : WaveformReader)
    (buf : Buffer) (evno : Int) (e : Nat)
    (h : (nextLoop sh rd buf evno e fuel).early = false) :
    (nextLoop sh rd buf evno e fuel).reader.run_ = rd.run_ ∧
      (nextLoop sh rd buf evno e fuel).attempted = fuel := by
  induction fuel generalizing rd buf evno e with
  | zero => simp [nextLoop]
  | succ n ih =>
    simp only [nextLoop] at h ⊢
    by_cases hrun : (rd.dataset_.next).getCurrRun ≠ rd.run_
    · rw [if_pos hrun] at h
      simp at h
    · rw [if_neg hrun] at h ⊢
      dsimp only at h ⊢
      have h1 := ih { run_ := rd.run_, dataset_ := rd.dataset_.next }
        (fillEvent buf sh rd.dataset_.useful e) (rd.dataset_.header).eventNumber
        (e + 1) h
      exact ⟨h1.1, by omega⟩

theorem nextLoop_lastCheck (fuel : Nat) (sh : Shape) (rd : WaveformReader)
    (buf : Buffer) (evno : Int) (e : Nat)
    (h : (nextLoop sh rd buf evno e fuel).early = false) (hf : 1 ≤ fuel) :
    (rd.dataset_.events.getD (rd.dataset_.pos + fuel) defaultEvent).run =
      rd.run_ := by
  induction fuel generalizing rd buf evno e with
  | zero => omega
  | succ n ih =>
    simp only [nextLoop] at h
    by_cases hrun : (rd.dataset_.next).getCurrRun ≠ rd.run_
    · rw [if_pos hrun] at h
      simp at h
    · rw [if_neg hrun] at h
      dsimp only at h
      simp only [AnitaDataset.getCurrRun, AnitaDataset.next_events,
        AnitaDataset.next_pos, not_not] at hrun
      by_cases hn : 1 ≤ n
      · have h1 := ih { run_ := rd.run_, dataset_ := rd.dataset_.next }
          (fillEvent buf sh rd.dataset_.useful e) (rd.dataset_.header).eventNumber
          (e + 1) h hn
        simp only [AnitaDataset.next_events, AnitaDataset.next_pos] at h1
        have hidx : rd.dataset_.pos + 1 + n = rd.dataset_.pos + (n + 1) := by
          omega
        rw [hidx] at h1
        exact h1
      · have hn0 : n = 0 := by omega
        subst hn0
        exact hrun

theorem nextLoop_att_full (fuel : Nat) (sh : Shape) (rd : WaveformReader)
    (buf : Buffer) (evno : Int) (e : Nat)
    (h : ∀ j, 1 ≤ j → j < fuel →
      (rd.dataset_.events.getD (rd.dataset_.pos + j) defaultEvent).run =
        rd.run_) :
    (nextLoop sh rd buf evno e fuel).attempted = fuel := by
  induction fuel generalizing rd buf evno e with
  | zero => simp [nextLoop]
  | succ n ih =>
    simp only [nextLoop]
    by_cases hn : 1 ≤ n
    · have hrun : ¬ (rd.dataset_.next).getCurrRun ≠ rd.run_ := by
        simp only [AnitaDataset.getCurrRun, AnitaDataset.next_events,
          AnitaDataset.next_pos, not_not]
        exact h 1 (le_refl 1) (by omega)
      rw [if_neg hrun]
      dsimp only
      have h1 := ih { run_ := rd.run_, dataset_ := rd.dataset_.next }
        (fillEvent buf sh rd.dataset_.useful e) (rd.dataset_.header).eventNumber
        (e + 1) (by
          intro j hj1 hj2
          simp only [AnitaDataset.next_events, AnitaDataset.next_pos]
          have hidx : rd.dataset_.pos + 1 + j = rd.dataset_.pos + (j + 1) := by
            omega
          rw [hidx]
          exact h (j + 1) (by omega) (by omega))
      omega
    · have hn0 : n = 0 := by omega
      subst hn0
      by_cases hrun : (rd.dataset_.next).getCurrRun ≠ rd.run_
      · rw [if_pos hrun]
      · rw [if_neg hrun]
        simp [nextLoop]

theorem next_def (rd : WaveformReader) (sh : Shape) (buf : Buffer) :
    rd.next sh buf = nextLoop sh rd buf 0 0 sh.events :=
  rfl

theorem decodeRing_ringIdx (ring : AnitaRing) :
    decodeRing (ringIdx ring) = some ring := by
  cases ring <;> rfl

theorem decodePol_polIdx (pol : AnitaPol) :
    decodePol (polIdx pol) = some pol := by
  cases pol <;> rfl

theorem chanVal_hit (sh : Shape) (ev : Event) (p s : Nat) (ring : AnitaRing)
    (pol : AnitaPol) (old : Int)
    (hs : s < min (ev.trace p ring pol).length sh.samples) :
    chanVal sh ev p (ringIdx ring) (polIdx pol) s old =
      (ev.trace p ring pol).getD s 0 := by
  simp [chanVal, decodeRing_ringIdx, decodePol_polIdx, hs]

theorem chanVal_miss (sh : Shape) (ev : Event) (p s : Nat) (ring : AnitaRing)
    (pol : AnitaPol) (old : Int)
    (hs : ¬ s < min (ev.trace p ring pol).length sh.samples) :
    chanVal sh ev p (ringIdx ring) (polIdx pol) s old = old := by
  simp [chanVal, decodeRing_ringIdx, decodePol_polIdx, hs]

theorem scoped_nil : scopedPerChannel [] :=
  ⟨[], rfl⟩

theorem scoped_append (t1 t2 : List (Bool × ChObj)) (h1 : scopedPerChannel t1)
    (h2 : scopedPerChannel t2) : scopedPerChannel (t1 ++ t2) := by
  obtain ⟨cs1, rfl⟩ := h1
  obtain ⟨cs2, rfl⟩ := h2
  exact ⟨cs1 ++ cs2, (List.flatMap_append cs1 cs2 _).symm⟩

theorem scoped_ringsPolsTrace (e p : Nat) :
    scopedPerChannel (ringsPolsTrace e p) :=
  ⟨[(e, p, .kTopRing, .kHorizontal), (e, p, .kTopRing, .kVertical),
    (e, p, .kMiddleRing, .kHorizontal), (e, p, .kMiddleRing, .kVertical),
    (e, p, .kBottomRing, .kHorizontal), (e, p, .kBottomRing, .kVertical)],
   by rfl⟩

theorem scoped_phisTrace (e n : Nat) : scopedPerChannel (phisTrace e n) := by
  induction n with
  | zero => exact scoped_nil
  | succ m ih => exact scoped_append _ _ ih (scoped_ringsPolsTrace e m)

theorem scoped_nextTraceLoop (fuel : Nat) (sh : Shape) (rd : WaveformReader)
    (e : Nat) : scopedPerChannel (nextTraceLoop sh rd e fuel) := by
  induction fuel generalizing rd e with
  | zero => exact scoped_nil
  | succ n ih =>
    simp only [nextTraceLoop]
    by_cases hrun : (rd.dataset_.next).getCurrRun ≠ rd.run_
    · rw [if_pos hrun]
      exact scoped_phisTrace e sh.phis
    · rw [if_neg hrun]
      exact scoped_append _ _ (scoped_phisTrace e sh.phis) (ih _ _)

theorem channelTrace_balanced (e p : Nat) (ring : AnitaRing) (pol : AnitaPol)
    (o : ChObj) :
    (channelTrace e p ring pol).count (true, o) =
      (channelTrace e p ring pol).count (false, o) := by
  cases o <;> simp [channelTrace, List.count_cons, List.count_nil]

theorem scoped_balanced (t : List (Bool × ChObj)) (h : scopedPerChannel t)
    (o : ChObj) : t.count (true, o) = t.count (false, o) := by
  obtain ⟨cs, rfl⟩ := h
  induction cs with
  | nil => rfl
  | cons c cs ih =>
    simp only [List.flatMap_cons, List.count_append]
    rw [ih, channelTrace_balanced]

theorem nextLoop_att_stop (fuel : Nat) (sh : Shape) :
    ∀ (rd : WaveformReader) (buf : Buffer) (evno : Int) (e k : Nat),
    1 ≤ k → k ≤ fuel →
    (∀ j, 1 ≤ j → j < k →
      (rd.dataset_.events.getD (rd.dataset_.pos + j) defaultEvent).run =
        rd.run_) →
    (rd.dataset_.events.getD (rd.dataset_.pos + k) defaultEvent).run ≠
      rd.run_ →
    (nextLoop sh rd buf evno e fuel).attempted = k ∧
      (nextLoop sh rd buf evno e fuel).early = true := by
  induction fuel with
  | zero =>
    intro rd buf evno e k hk1 hkf hpass hstop
    omega
  | succ n ih =>
    intro rd buf evno e k hk1 hkf hpass hstop
    simp only [nextLoop]
    by_cases hk : k = 1
    · subst hk
      have hrun : (rd.dataset_.next).getCurrRun ≠ rd.run_ := by
        simp only [AnitaDataset.getCurrRun, AnitaDataset.next_events,
          AnitaDataset.next_pos]
        exact hstop
      rw [if_pos hrun]
      exact ⟨rfl, rfl⟩
    · have hrun : ¬ (rd.dataset_.next).getCurrRun ≠ rd.run_ := by
        simp only [AnitaDataset.getCurrRun, AnitaDataset.next_events,
          AnitaDataset.next_pos, not_not]
        exact hpass 1 (le_refl 1) (by omega)
      rw [if_neg hrun]
      dsimp only
      have hres := ih { run_ := rd.run_, dataset_ := rd.dataset_.next }
        (fillEvent buf sh rd.dataset_.useful e) (rd.dataset_.header).eventNumber
        (e + 1) (k - 1) (by omega) (by omega)
        (by
          intro j hj1 hj2
          show (rd.dataset_.next.events.getD (rd.dataset_.next.pos + j)
            defaultEvent).run = rd.run_
          rw [AnitaDataset.next_events, AnitaDataset.next_pos]
          have hidx : rd.dataset_.pos + 1 + j = rd.dataset_.pos + (j + 1) := by
            omega
          rw [hidx]
          exact hpass (j + 1) (by omega) (by omega))
        (by
          show (rd.dataset_.next.events.getD (rd.dataset_.next.pos + (k - 1))
            defaultEvent).run ≠ rd.run_
          rw [AnitaDataset.next_events, AnitaDataset.next_pos]
          have hidx : rd.dataset_.pos + 1 + (k - 1) = rd.dataset_.pos + k := by
            omega
          rw [hidx]
          exact hstop)
      obtain ⟨h1, h2⟩ := hres
      exact ⟨by omega, h2⟩

/-- C1: on a buffer with at least one event slot, `next` returns the event
number read from the event source's header of the last event the reader
attempted to process — the event `attempted - 1` positions past the initial
cursor, where `1 ≤ attempted ≤ E` — on both the full-batch completion path and
the run-boundary early-return path. -/
theorem next_returns_last_attempted (rd : WaveformReader) (sh : Shape)
    (buf : Buffer) (h : 1 ≤ sh.events) :
    1 ≤ (rd.next sh buf).attempted ∧
      (rd.next sh buf).attempted ≤ sh.events ∧
      (rd.next sh buf).evno =
        (slotEvent rd ((rd.next sh buf).attempted - 1)).eventNumber := by
  simp only [next_def]
  exact ⟨nextLoop_attempted_pos _ _ _ _ _ _ h,
    nextLoop_attempted_le _ _ _ _ _ _, nextLoop_evno _ _ _ _ _ _ h⟩

/-- Witness for C1 on a concrete two-event source. -/
theorem next_returns_last_attempted_witness :
    1 ≤ (rdAB.next ⟨2, 1, 3, 2, 4⟩ bufZero).attempted ∧
      (rdAB.next ⟨2, 1, 3, 2, 4⟩ bufZero).attempted ≤ (2 : Nat) ∧
      (rdAB.next ⟨2, 1, 3, 2, 4⟩ bufZero).evno =
        (slotEvent rdAB ((rdAB.next ⟨2, 1, 3, 2, 4⟩ bufZero).attempted - 1)).eventNumber :=
  next_returns_last_attempted rdAB ⟨2, 1, 3, 2, 4⟩ bufZero (by decide)

/-- C3: for every processed event slot `i`, phi-sector `p < phis` and channel
(ring, pol), with `S` the resampled waveform's sample count and `B` the
buffer's sample-axis size, `next` writes the waveform's samples at every index
below `min(S, B)` into the channel's sample axis. -/
theorem next_writes_min_samples (rd : WaveformReader) (sh : Shape)
    (buf : Buffer) (i p s : Nat) (ring : AnitaRing) (pol : AnitaPol)
    (hi : i < (rd.next sh buf).attempted) (hp : p < sh.phis)
    (hs : s < min ((slotEvent rd i).trace p ring pol).length sh.samples) :
    (rd.next sh buf).buf i p (ringIdx ring) (polIdx pol) s =
      ((slotEvent rd i).trace p ring pol).getD s 0 := by
  simp only [next_def] at hi ⊢
  rw [nextLoop_buf, if_pos ⟨Nat.zero_le i, by omega, hp⟩]
  exact chanVal_hit sh _ p s ring pol _ hs

/-- Witness for C3: sample 1 of the top-ring horizontal channel of slot 0. -/
theorem next_writes_min_samples_witness :
    (rdAB.next ⟨2, 1, 3, 2, 4⟩ bufZero).buf 0 0 (ringIdx AnitaRing.kTopRing)
        (polIdx AnitaPol.kHorizontal) 1 =
      ((slotEvent rdAB 0).trace 0 AnitaRing.kTopRing AnitaPol.kHorizontal).getD 1 0 :=
  next_writes_min_samples rdAB ⟨2, 1, 3, 2, 4⟩ bufZero 0 0 1
    AnitaRing.kTopRing AnitaPol.kHorizontal (by decide) (by decide) (by decide)

/-- C4: every buffer element outside the written region keeps its prior value:
on any channel, samples at indices at or beyond `min(S, B)` are unmodified; all
elements of event slots the loop never reached (at or beyond `attempted`, in
particular the slots skipped by an early run-boundary return) are unmodified;
and phi-sectors at or beyond the buffer's phi-axis size are unmodified.  In
particular the reader never zero-fills any untouched element. -/
theorem next_frame (rd : WaveformReader) (sh : Shape) (buf : Buffer) :
    (∀ (i p s : Nat) (ring : AnitaRing) (pol : AnitaPol),
        ¬ s < min ((slotEvent rd i).trace p ring pol).length sh.samples →
        (rd.next sh buf).buf i p (ringIdx ring) (polIdx pol) s =
          buf i p (ringIdx ring) (polIdx pol) s) ∧
      (∀ i p r q s : Nat, (rd.next sh buf).attempted ≤ i →
        (rd.next sh buf).buf i p r q s = buf i p r q s) ∧
      (∀ i p r q s : Nat, sh.phis ≤ p →
        (rd.next sh buf).buf i p r q s = buf i p r q s) := by
  simp only [next_def]
  refine ⟨?_, ?_, ?_⟩
  · intro i p s ring pol hs
    rw [nextLoop_buf]
    by_cases hcond : 0 ≤ i ∧ i < 0 + (nextLoop sh rd buf 0 0 sh.events).attempted
        ∧ p < sh.phis
    · rw [if_pos hcond]
      exact chanVal_miss sh _ p s ring pol _ hs
    · rw [if_neg hcond]
  · intro i p r q s hi
    rw [nextLoop_buf, if_neg (by omega)]
  · intro i p r q s hp
    rw [nextLoop_buf, if_neg (by omega)]

/-- Witness for C4: a sample index beyond the waveform length keeps the
pre-filled sentinel, as does a slot beyond the batch and a phi-sector beyond
the phi axis. -/
theorem next_frame_witness :
    (rdAB.next ⟨2, 1, 3, 2, 4⟩ bufNine).buf 0 0 (ringIdx AnitaRing.kTopRing)
        (polIdx AnitaPol.kHorizontal) 3 = 9 ∧
      (rdAB.next ⟨2, 1, 3, 2, 4⟩ bufNine).buf 5 0 0 0 0 = 9 ∧
      (rdAB.next ⟨2, 1, 3, 2, 4⟩ bufNine).buf 0 4 0 0 0 = 9 :=
  ⟨(next_frame rdAB ⟨2, 1, 3, 2, 4⟩ bufNine).1 0 0 3 AnitaRing.kTopRing
      AnitaPol.kHorizontal (by decide),
    (next_frame rdAB ⟨2, 1, 3, 2, 4⟩ bufNine).2.1 5 0 0 0 0 (by decide),
    (next_frame rdAB ⟨2, 1, 3, 2, 4⟩ bufNine).2.2 0 4 0 0 0 (by decide)⟩

/-- C5: for every processed event slot and phi-sector, ring-axis indices 0, 1,
2 receive the top, middle and bottom ring channels in exactly that order, and
polarization-axis indices 0, 1 receive the horizontal then vertical channels in
exactly that order, for every shape (the ring and polarization axis sizes of
the buffer are never consulted, so the order is not configurable). -/
theorem next_channel_order (rd : WaveformReader) (sh : Shape) (buf : Buffer)
    (i p : Nat) (hi : i < (rd.next sh buf).attempted) (hp : p < sh.phis) :
    (∀ (pol : AnitaPol) (s : Nat),
        s < min ((slotEvent rd i).trace p AnitaRing.kTopRing pol).length sh.samples →
        (rd.next sh buf).buf i p 0 (polIdx pol) s =
          ((slotEvent rd i).trace p AnitaRing.kTopRing pol).getD s 0) ∧
      (∀ (pol : AnitaPol) (s : Nat),
        s < min ((slotEvent rd i).trace p AnitaRing.kMiddleRing pol).length sh.samples →
        (rd.next sh buf).buf i p 1 (polIdx pol) s =
          ((slotEvent rd i).trace p AnitaRing.kMiddleRing pol).getD s 0) ∧
      (∀ (pol : AnitaPol) (s : Nat),
        s < min ((slotEvent rd i).trace p AnitaRing.kBottomRing pol).length sh.samples →
        (rd.next sh buf).buf i p 2 (polIdx pol) s =
          ((slotEvent rd i).trace p AnitaRing.kBottomRing pol).getD s 0) ∧
      (∀ (ring : AnitaRing) (s : Nat),
        s < min ((slotEvent rd i).trace p ring AnitaPol.kHorizontal).length sh.samples →
        (rd.next sh buf).buf i p (ringIdx ring) 0 s =
          ((slotEvent rd i).trace p ring AnitaPol.kHorizontal).getD s 0) ∧
      (∀ (ring : AnitaRing) (s : Nat),
        s < min ((slotEvent rd i).trace p ring AnitaPol.kVertical).length sh.samples →
        (rd.next sh buf).buf i p (ringIdx ring) 1 s =
          ((slotEvent rd i).trace p ring AnitaPol.kVertical).getD s 0) := by
  have key : ∀ (ring : AnitaRing) (pol : AnitaPol) (s : Nat),
      s < min ((slotEvent rd i).trace p ring pol).length sh.samples →
      (rd.next sh buf).buf i p (ringIdx ring) (polIdx pol) s =
        ((slotEvent rd i).trace p ring pol).getD s 0 := by
    intro ring pol s hs
    simp only [next_def] at hi ⊢
    rw [nextLoop_buf, if_pos ⟨Nat.zero_le i, by omega, hp⟩]
    exact chanVal_hit sh _ p s ring pol _ hs
  exact ⟨fun pol s hs => key AnitaRing.kTopRing pol s hs,
    fun pol s hs => key AnitaRing.kMiddleRing pol s hs,
    fun pol s hs => key AnitaRing.kBottomRing pol s hs,
    fun ring s hs => key ring AnitaPol.kHorizontal s hs,
    fun ring s hs => key ring AnitaPol.kVertical s hs⟩

/-- Witness for C5 at slot 0, phi-sector 0 of a concrete source. -/
theorem next_channel_order_witness :
    (rdAB.next ⟨2, 1, 3, 2, 4⟩ bufZero).buf 0 0 0 (polIdx AnitaPol.kVertical) 0 =
        ((slotEvent rdAB 0).trace 0 AnitaRing.kTopRing AnitaPol.kVertical).getD 0 0 ∧
      (rdAB.next ⟨2, 1, 3, 2, 4⟩ bufZero).buf 0 0 (ringIdx AnitaRing.kBottomRing) 1 0 =
        ((slotEvent rdAB 0).trace 0 AnitaRing.kBottomRing AnitaPol.kVertical).getD 0 0 :=
  ⟨(next_channel_order rdAB ⟨2, 1, 3, 2, 4⟩ bufZero 0 0 (by decide) (by decide)).1
      AnitaPol.kVertical 0 (by decide),
    (next_channel_order rdAB ⟨2, 1, 3, 2, 4⟩ bufZero 0 0 (by decide) (by decide)).2.2.2.2
      AnitaRing.kBottomRing 0 (by decide)⟩

/-- C9: every per-channel intermediate object (raw trace and resampled
waveform) acquired in the innermost loop is released before the next channel
iteration begins — the acquisition/release trace of a whole call decomposes
into complete per-channel blocks on every path, including the run-boundary
early return — and every acquisition is matched by exactly as many releases,
so no intermediate object remains live after the call. -/
theorem next_channel_objects_scoped (rd : WaveformReader) (sh : Shape) :
    scopedPerChannel (nextTrace rd sh) ∧
      ∀ o : ChObj, (nextTrace rd sh).count (true, o) =
        (nextTrace rd sh).count (false, o) := by
  have hsc : scopedPerChannel (nextTrace rd sh) :=
    scoped_nextTraceLoop sh.events sh rd 0
  exact ⟨hsc, fun o => scoped_balanced _ hsc o⟩

/-- C10: on a buffer with zero event slots, `next` returns the sentinel 0 (the
initialization of `evno`, independent of every header in the source), attempts
no event, writes nothing, does not advance the cursor and leaves the reader —
stored run included — unchanged. -/
theorem next_zero_slots (rd : WaveformReader) (sh : Shape) (buf : Buffer)
    (h : sh.events = 0) :
    (rd.next sh buf).evno = 0 ∧ (rd.next sh buf).attempted = 0 ∧
      (rd.next sh buf).early = false ∧ (rd.next sh buf).reader = rd ∧
      ∀ i p r q s : Nat, (rd.next sh buf).buf i p r q s = buf i p r q s := by
  simp only [next_def, h]
  exact ⟨rfl, rfl, rfl, rfl, fun _ _ _ _ _ => rfl⟩

/-- C2: with the source holding runs R1 = {a, b} then R2 = {c, d} and the
reader at `a` with stored run R1, `next` on a three-slot buffer returns `b`'s
event number through the early-return branch after attempting exactly two
events, writes slots 0 and 1 from `a` and `b`, never writes slot 2, and leaves
the stored run equal to R2. -/
theorem next_run_boundary_batch3 (a b c d : Event) (r1 r2 : Nat) (sh : Shape)
    (buf : Buffer) (hsh : sh.events = 3) (ha : a.run = r1) (hb : b.run = r1)
    (hc : c.run = r2) (hd : d.run = r2) (hne : r1 ≠ r2) :
    (WaveformReader.next ⟨r1, ⟨[a, b, c, d], 0⟩⟩ sh buf).evno =
        b.eventNumber ∧
      (WaveformReader.next ⟨r1, ⟨[a, b, c, d], 0⟩⟩ sh buf).reader.run_ = r2 ∧
      (WaveformReader.next ⟨r1, ⟨[a, b, c, d], 0⟩⟩ sh buf).attempted = 2 ∧
      (WaveformReader.next ⟨r1, ⟨[a, b, c, d], 0⟩⟩ sh buf).early = true ∧
      (∀ p r q s : Nat,
        (WaveformReader.next ⟨r1, ⟨[a, b, c, d], 0⟩⟩ sh buf).buf 2 p r q s =
          buf 2 p r q s) ∧
      (∀ (p s : Nat) (ring : AnitaRing) (pol : AnitaPol), p < sh.phis →
        s < min (a.trace p ring pol).length sh.samples →
        (WaveformReader.next ⟨r1, ⟨[a, b, c, d], 0⟩⟩ sh buf).buf 0 p
          (ringIdx ring) (polIdx pol) s = (a.trace p ring pol).getD s 0) ∧
      (∀ (p s : Nat) (ring : AnitaRing) (pol : AnitaPol), p < sh.phis →
        s < min (b.trace p ring pol).length sh.samples →
        (WaveformReader.next ⟨r1, ⟨[a, b, c, d], 0⟩⟩ sh buf).buf 1 p
          (ringIdx ring) (polIdx pol) s = (b.trace p ring pol).getD s 0) := by
  simp only [next_def, hsh]
  have hstop := nextLoop_att_stop 3 sh ⟨r1, ⟨[a, b, c, d], 0⟩⟩ buf 0 0 2
    (by omega) (by omega)
    (by
      intro j hj1 hj2
      have hj : j = 1 := by omega
      subst hj
      show b.run = r1
      exact hb)
    (by
      show ¬ c.run = r1
      rw [hc]
      exact Ne.symm hne)
  obtain ⟨hatt, hearly⟩ := hstop
  have hevno := nextLoop_evno 3 sh ⟨r1, ⟨[a, b, c, d], 0⟩⟩ buf 0 0 (by omega)
  rw [hatt] at hevno
  have ht := nextLoop_early_true 3 sh ⟨r1, ⟨[a, b, c, d], 0⟩⟩ buf 0 0 hearly
  rw [hatt] at ht
  refine ⟨hevno.trans rfl, ht.1.trans hc, hatt, hearly, ?_, ?_, ?_⟩
  · intro p r q s
    rw [nextLoop_buf, hatt, if_neg (by omega)]
  · intro p s ring pol hp hs
    rw [nextLoop_buf, hatt, if_pos ⟨le_refl 0, by omega, hp⟩]
    exact chanVal_hit sh _ p s ring pol _ hs
  · intro p s ring pol hp hs
    rw [nextLoop_buf, hatt, if_pos ⟨Nat.zero_le 1, by omega, hp⟩]
    exact chanVal_hit sh _ p s ring pol _ hs

/-- Witness for C2 at the concrete two-run source. -/
theorem next_run_boundary_batch3_witness :
    (WaveformReader.next ⟨1, ⟨[evA, evB, evC, evD], 0⟩⟩ ⟨3, 1, 3, 2, 2⟩
        bufZero).evno = evB.eventNumber ∧
      (WaveformReader.next ⟨1, ⟨[evA, evB, evC, evD], 0⟩⟩ ⟨3, 1, 3, 2, 2⟩
        bufZero).reader.run_ = 2 ∧
      (WaveformReader.next ⟨1, ⟨[evA, evB, evC, evD], 0⟩⟩ ⟨3, 1, 3, 2, 2⟩
        bufZero).buf 2 0 0 0 0 = bufZero 2 0 0 0 0 ∧
      (WaveformReader.next ⟨1, ⟨[evA, evB, evC, evD], 0⟩⟩ ⟨3, 1, 3, 2, 2⟩
        bufZero).buf 0 0 (ringIdx AnitaRing.kTopRing)
          (polIdx AnitaPol.kHorizontal) 0 =
        (evA.trace 0 AnitaRing.kTopRing AnitaPol.kHorizontal).getD 0 0 :=
  ⟨(next_run_boundary_batch3 evA evB evC evD 1 2 ⟨3, 1, 3, 2, 2⟩ bufZero rfl
      rfl rfl rfl rfl (by decide)).1,
    (next_run_boundary_batch3 evA evB evC evD 1 2 ⟨3, 1, 3, 2, 2⟩ bufZero rfl
      rfl rfl rfl rfl (by decide)).2.1,
    (next_run_boundary_batch3 evA evB evC evD 1 2 ⟨3, 1, 3, 2, 2⟩ bufZero rfl
      rfl rfl rfl rfl (by decide)).2.2.2.2.1 0 0 0 0,
    (next_run_boundary_batch3 evA evB evC evD 1 2 ⟨3, 1, 3, 2, 2⟩ bufZero rfl
      rfl rfl rfl rfl (by decide)).2.2.2.2.2.1 0 0 AnitaRing.kTopRing
      AnitaPol.kHorizontal (by decide) (by decide)⟩

/-- C6 counterexample: a source with run 1 = {evA, evB} followed by run 2 =
{evC, evD}, a reader at evA with stored run 1, and a two-slot buffer — the
batch size equals the number of events remaining in the current run, yet the
early-return branch fires on the final iteration and the stored run changes to
2, so the claim's "without triggering the early-return path (run unchanged)"
fails. -/
theorem next_exact_fit_counterexample :
    evA.run = rdABCD.run_ ∧ evB.run = rdABCD.run_ ∧ evC.run ≠ rdABCD.run_ ∧
      (rdABCD.next ⟨2, 1, 3, 2, 1⟩ bufZero).attempted = 2 ∧
      (rdABCD.next ⟨2, 1, 3, 2, 1⟩ bufZero).reader.run_ ≠ rdABCD.run_ ∧
      (rdABCD.next ⟨2, 1, 3, 2, 1⟩ bufZero).early = true := by
  decide

/-- C6 amended: if the buffer's slot count E equals the number of events
remaining in the current run (all E events from the cursor carry the stored
run), the call attempts exactly E events and returns the last of those events'
number; the stored run after the call always equals the run of the event at
the advanced cursor, and the early-return path is avoided — leaving the stored
run unchanged — precisely when that run still equals the stored run (when a
new run starts immediately after the batch, the final iteration's advance
crosses it, the early-return branch fires with the same return value, and the
stored run becomes the new run). -/
theorem next_exact_fit_amended (rd : WaveformReader) (sh : Shape)
    (buf : Buffer) (h1 : 1 ≤ sh.events)
    (h2 : ∀ j, j < sh.events → (slotEvent rd j).run = rd.run_) :
    (rd.next sh buf).attempted = sh.events ∧
      (rd.next sh buf).evno = (slotEvent rd (sh.events - 1)).eventNumber ∧
      (rd.next sh buf).reader.run_ = (slotEvent rd sh.events).run ∧
      ((rd.next sh buf).early = false ↔
        (slotEvent rd sh.events).run = rd.run_) := by
  simp only [next_def]
  have hatt : (nextLoop sh rd buf 0 0 sh.events).attempted = sh.events :=
    nextLoop_att_full _ _ _ _ _ _ (fun j _ hj2 => h2 j hj2)
  have hevno := nextLoop_evno sh.events sh rd buf 0 0 h1
  rw [hatt] at hevno
  refine ⟨hatt, hevno, ?_, ?_⟩
  · cases hE : (nextLoop sh rd buf 0 0 sh.events).early
    · have hf := nextLoop_early_false _ _ _ _ _ _ hE
      have hl := nextLoop_lastCheck _ _ _ _ _ _ hE h1
      rw [hf.1]
      exact hl.symm
    · have ht := nextLoop_early_true _ _ _ _ _ _ hE
      rw [hatt] at ht
      exact ht.1
  · cases hE : (nextLoop sh rd buf 0 0 sh.events).early
    · have hl := nextLoop_lastCheck _ _ _ _ _ _ hE h1
      exact iff_of_true rfl hl
    · have ht := nextLoop_early_true _ _ _ _ _ _ hE
      rw [hatt] at ht
      exact iff_of_false (by simp) ht.2

/-- Witness for the amended C6 on a three-event single-run source with a
two-slot buffer: the batch is followed by another event of the same run, so no
early return fires and the stored run is unchanged. -/
theorem next_exact_fit_amended_witness :
    (rdAB3.next ⟨2, 1, 3, 2, 1⟩ bufZero).attempted = 2 ∧
      (rdAB3.next ⟨2, 1, 3, 2, 1⟩ bufZero).evno =
        (slotEvent rdAB3 1).eventNumber ∧
      (rdAB3.next ⟨2, 1, 3, 2, 1⟩ bufZero).reader.run_ =
        (slotEvent rdAB3 2).run ∧
      ((rdAB3.next ⟨2, 1, 3, 2, 1⟩ bufZero).early = false ↔
        (slotEvent rdAB3 2).run = rdAB3.run_) :=
  next_exact_fit_amended rdAB3 ⟨2, 1, 3, 2, 1⟩ bufZero (by decide)
    (by intro j hj; interval_cases j <;> rfl)

/-- C7: every call of `next` advances the event cursor by exactly the number
of events it attempted, and repeated calls with a one-slot buffer return the
events' numbers in source order — the n-th call attempts exactly one event and
returns the event number at offset n from the starting cursor, with none
skipped or repeated. -/
theorem next_batch1_sequential (rd : WaveformReader) (sh : Shape)
    (buf : Buffer) (h : sh.events = 1) :
    (∀ (rd2 : WaveformReader) (sh2 : Shape) (buf2 : Buffer),
        (rd2.next sh2 buf2).reader.dataset_.pos =
          rd2.dataset_.pos + (rd2.next sh2 buf2).attempted) ∧
      ∀ n : Nat,
        (iterCalls sh buf rd n).dataset_.pos = rd.dataset_.pos + n ∧
        (iterCalls sh buf rd n).dataset_.events = rd.dataset_.events ∧
        ((iterCalls sh buf rd n).next sh buf).attempted = 1 ∧
        ((iterCalls sh buf rd n).next sh buf).evno =
          (rd.dataset_.events.getD (rd.dataset_.pos + n)
            defaultEvent).eventNumber := by
  have hgen : ∀ (rd2 : WaveformReader) (sh2 : Shape) (buf2 : Buffer),
      (rd2.next sh2 buf2).reader.dataset_.pos =
        rd2.dataset_.pos + (rd2.next sh2 buf2).attempted := by
    intro rd2 sh2 buf2
    simp only [next_def]
    exact nextLoop_pos _ _ _ _ _ _
  have hatt1 : ∀ rd2 : WaveformReader, (rd2.next sh buf).attempted = 1 := by
    intro rd2
    simp only [next_def, h]
    have hle := nextLoop_attempted_le 1 sh rd2 buf 0 0
    have hge := nextLoop_attempted_pos 1 sh rd2 buf 0 0 (le_refl 1)
    omega
  have hmain : ∀ n : Nat,
      (iterCalls sh buf rd n).dataset_.pos = rd.dataset_.pos + n ∧
      (iterCalls sh buf rd n).dataset_.events = rd.dataset_.events := by
    intro n
    induction n with
    | zero => exact ⟨rfl, rfl⟩
    | succ m ih =>
      constructor
      · show ((iterCalls sh buf rd m).next sh buf).reader.dataset_.pos = _
        rw [hgen, hatt1, ih.1]
        omega
      · show ((iterCalls sh buf rd m).next sh buf).reader.dataset_.events = _
        simp only [next_def]
        rw [nextLoop_events]
        exact ih.2
  refine ⟨hgen, fun n => ⟨(hmain n).1, (hmain n).2, hatt1 _, ?_⟩⟩
  have hev := nextLoop_evno sh.events sh (iterCalls sh buf rd n) buf 0 0
    (by omega)
  have ha1 := hatt1 (iterCalls sh buf rd n)
  simp only [next_def] at ha1 ⊢
  rw [hev, ha1, (hmain n).2, (hmain n).1]
  have hidx : rd.dataset_.pos + n + (1 - 1) = rd.dataset_.pos + n := by omega
  rw [hidx]

/-- Witness for C7: the third event of the concrete source is returned by the
third one-slot call. -/
theorem next_batch1_sequential_witness :
    (iterCalls ⟨1, 1, 3, 2, 1⟩ bufZero rdABCD 2).dataset_.pos =
        rdABCD.dataset_.pos + 2 ∧
      ((iterCalls ⟨1, 1, 3, 2, 1⟩ bufZero rdABCD 2).next ⟨1, 1, 3, 2, 1⟩
        bufZero).evno =
        (rdABCD.dataset_.events.getD (rdABCD.dataset_.pos + 2)
          defaultEvent).eventNumber :=
  ⟨((next_batch1_sequential rdABCD ⟨1, 1, 3, 2, 1⟩ bufZero rfl).2 2).1,
    ((next_batch1_sequential rdABCD ⟨1, 1, 3, 2, 1⟩ bufZero rfl).2 2).2.2.2⟩

/-- C8 counterexample: after a call that crosses a run boundary, the stored
run (2) differs from the run of the most recently attempted event read (evB,
run 1) — the stored run tracks the next, not-yet-read event, so the claim's
"always reflects the run of the most recently attempted event read" fails. -/
theorem next_run_not_last_read_counterexample :
    (rdABCD.next ⟨3, 1, 3, 2, 1⟩ bufZero).attempted = 2 ∧
      (slotEvent rdABCD
        ((rdABCD.next ⟨3, 1, 3, 2, 1⟩ bufZero).attempted - 1)).run = 1 ∧
      (rdABCD.next ⟨3, 1, 3, 2, 1⟩ bufZero).reader.run_ = 2 := by
  decide

/-- C8 amended: the stored run is set to the constructor's run argument at
construction; during `next` it changes exactly when the source's current run
differs from it after an advance, at which point it is set to the source's
current run — hence after any call attempting at least one event it equals the
run of the event at the source's advanced cursor (the next event to read), not
necessarily the run of the most recently read event. -/
theorem run_tracking_amended :
    (∀ (run : Nat) (d : AnitaDataset), (WaveformReader.create run d).run_ = run) ∧
      ∀ (rd : WaveformReader) (sh : Shape) (buf : Buffer),
        ((rd.next sh buf).reader.run_ ≠ rd.run_ ↔
          (rd.next sh buf).early = true) ∧
        (1 ≤ sh.events →
          (rd.next sh buf).reader.run_ =
            (rd.dataset_.events.getD (rd.next sh buf).reader.dataset_.pos
              defaultEvent).run) := by
  refine ⟨fun run d => rfl, fun rd sh buf => ⟨?_, ?_⟩⟩
  · simp only [next_def]
    cases hE : (nextLoop sh rd buf 0 0 sh.events).early
    · have hf := nextLoop_early_false _ _ _ _ _ _ hE
      rw [hf.1]
      simp
    · have ht := nextLoop_early_true _ _ _ _ _ _ hE
      constructor
      · intro _
        rfl
      · intro _
        rw [ht.1]
        exact ht.2
  · intro hge
    simp only [next_def]
    rw [nextLoop_pos]
    cases hE : (nextLoop sh rd buf 0 0 sh.events).early
    · have hf := nextLoop_early_false _ _ _ _ _ _ hE
      have hl := nextLoop_lastCheck _ _ _ _ _ _ hE hge
      rw [hf.1, hf.2]
      exact hl.symm
    · have ht := nextLoop_early_true _ _ _ _ _ _ hE
      exact ht.1

/-- Witness for the amended C8 on the concrete two-run source. -/
theorem run_tracking_amended_witness :
    ((rdABCD.next ⟨3, 1, 3, 2, 1⟩ bufZero).reader.run_ ≠ rdABCD.run_ ↔
        (rdABCD.next ⟨3, 1, 3, 2, 1⟩ bufZero).early = true) ∧
      (rdABCD.next ⟨3, 1, 3, 2, 1⟩ bufZero).reader.run_ =
        (rdABCD.dataset_.events.getD
          (rdABCD.next ⟨3, 1, 3, 2, 1⟩ bufZero).reader.dataset_.pos
          defaultEvent).run :=
  ⟨(run_tracking_amended.2 rdABCD ⟨3, 1, 3, 2, 1⟩ bufZero).1,
    (run_tracking_amended.2 rdABCD ⟨3, 1, 3, 2, 1⟩ bufZero).2 (by decide)⟩

/-- Witness for C10 on a concrete source whose headers are all nonzero. -/
theorem next_zero_slots_witness :
    (rdAB.next ⟨0, 1, 3, 2, 4⟩ bufNine).evno = 0 ∧
      (rdAB.next ⟨0, 1, 3, 2, 4⟩ bufNine).attempted = 0 ∧
      (rdAB.next ⟨0, 1, 3, 2, 4⟩ bufNine).early = false ∧
      (rdAB.next ⟨0, 1, 3, 2, 4⟩ bufNine).reader = rdAB ∧
      ∀ i p r q s : Nat,
        (rdAB.next ⟨0, 1, 3, 2, 4⟩ bufNine).buf i p r q s = bufNine i p r q s :=
  next_zero_slots rdAB ⟨0, 1, 3, 2, 4⟩ bufNine rfl

end Anitareader
